import Mathlib

/-!
Verification of the spectral embedding and similarity search engine of the
demoplatform repository.

The engine lives in two React components:

* `src/components/NeuralSafety/SpectralMatching.jsx` — `gaussianSmooth`,
  `peaksToVector`, `cosineSimilarity`, the full-scan ranking inside
  `handleSearch`, and the `simCategory` classification of the
  ModifiedCosine variant of the component.
* `src/components/DeepSpectrum/Spec2VecAnalysis.jsx` — `buildComparison`,
  the sequential per-peak batch loops `handleActivate` /
  `handleBroadActivate`, and the broad-index status polling `useEffect`.

The numeric pipeline (`peaksToVector`, `gaussianSmooth`) is embedded over ℝ
(JS doubles are idealised as reals, as the specification's own tolerance
language suggests).  The discrete logic (ranking, comparison rows, batch
loop, polling schedule, match categories) is embedded executably over ℚ / ℕ
so concrete instances can be checked by evaluation.
-/

namespace Spec2Proof

/-- Dimension of the embedding vectors (`DIM = 300` in the source). -/
def DIM : ℕ := 300

/-! ## Match category classification (`simCategory`, SpectralMatching.jsx)

Source:
```
function simCategory(sim, n_matches) \x7b
  if (sim >= 0.65 && n_matches >= 5) return "HIGH";
  if (sim >= 0.40 && n_matches >= 2) return "GREY";
  return "NONE";
\x7d
```
-/

/-- Result categories returned by `simCategory`. -/
inductive MatchCategory where
  | HIGH
  | GREY
  | NONE
  deriving DecidableEq

/-- Translation of `simCategory` from SpectralMatching.jsx. -/
def simCategory (sim : ℚ) (n_matches : ℕ) : MatchCategory :=
  if 65 / 100 ≤ sim ∧ 5 ≤ n_matches then .HIGH
  else if 40 / 100 ≤ sim ∧ 2 ≤ n_matches then .GREY
  else .NONE

/-! ## Full-scan cosine ranking (`handleSearch`, SpectralMatching.jsx)

Source:
```
const scored = embs.map((mol) => (\x7b ...mol,
  similarity: cosineSimilarity(queryVec, mol.embedding) \x7d))
  .sort((a, b) => b.similarity - a.similarity);
setMatchResult(\x7b best: scored[0], top5: scored.slice(0, 5) \x7d);
```
JavaScript `Array.prototype.sort` is guaranteed stable, and the comparator
orders by descending `similarity`; we embed it as the stable insertion sort
`sortBySimDesc` (an element is inserted after every earlier element with a
greater-or-equal key).
-/

/-- A library entry as consumed by `handleSearch`: an id and an embedding. -/
structure LibraryEntry where
  id : ℕ
  embedding : List ℚ
  deriving DecidableEq

/-- Translation of `cosineSimilarity` (dot product over the `DIM` slots,
clamped to `[0, 1]`).  Missing slots read as 0, as a 300-long JS array
would provide. -/
def cosineSimilarity (vecA vecB : List ℚ) : ℚ :=
  max 0 (min 1 (∑ i in Finset.range DIM, vecA.getD i 0 * vecB.getD i 0))

/-- Scoring step of `handleSearch`: pair each entry with its clamped cosine
similarity to the query vector, in library order. -/
def scoreLibrary (queryVec : List ℚ) (embs : List LibraryEntry) :
    List (ℚ × LibraryEntry) :=
  embs.map (fun mol => (cosineSimilarity queryVec mol.embedding, mol))

/-- Stable insertion step for the descending similarity sort: `x` is placed
before the first element whose similarity is ≤ `x`'s, hence after all
earlier elements with similarity ≥ `x`'s (JS stable-sort semantics for the
comparator `(a, b) => b.similarity - a.similarity`). -/
def insertBySimDesc (x : ℚ × LibraryEntry) :
    List (ℚ × LibraryEntry) → List (ℚ × LibraryEntry)
  | [] => [x]
  | y :: ys => if y.1 ≤ x.1 then x :: y :: ys else y :: insertBySimDesc x ys

/-- Stable descending sort of the scored list. -/
def sortBySimDesc : List (ℚ × LibraryEntry) → List (ℚ × LibraryEntry)
  | [] => []
  | x :: xs => insertBySimDesc x (sortBySimDesc xs)

/-- Translation of the ranking performed by `handleSearch`: score the whole
library, stable-sort descending by similarity, return the first `topN`
(the source uses `scored.slice(0, 5)`). -/
def handleSearchRank (queryVec : List ℚ) (embs : List LibraryEntry)
    (topN : ℕ) : List (ℚ × LibraryEntry) :=
  (sortBySimDesc (scoreLibrary queryVec embs)).take topN

/-- Spec-level insertion for `rankSpec`: order index-tagged scored entries
by similarity descending, ties broken by the original index ascending.
This follows the spec's words: "Sort descending by similarity; ties broken
by original index order (stable sort)". -/
def lexInsert (a : ℕ × ℚ × LibraryEntry) :
    List (ℕ × ℚ × LibraryEntry) → List (ℕ × ℚ × LibraryEntry)
  | [] => [a]
  | b :: l =>
    if b.2.1 < a.2.1 ∨ (a.2.1 = b.2.1 ∧ a.1 < b.1) then a :: b :: l
    else b :: lexInsert a l

/-- Spec-level sort on index-tagged scored entries. -/
def lexSort : List (ℕ × ℚ × LibraryEntry) → List (ℕ × ℚ × LibraryEntry)
  | [] => []
  | a :: l => lexInsert a (lexSort l)

/-- Spec-level ranking, written from the spec's words for the refinement
check against `handleSearchRank`: tag the scored entries with their
original indices, sort by (similarity desc, index asc), strip the tags and
take the first `topN`. -/
def rankSpec (queryVec : List ℚ) (embs : List LibraryEntry) (topN : ℕ) :
    List (ℚ × LibraryEntry) :=
  ((lexSort (scoreLibrary queryVec embs).enum).map Prod.snd).take topN

/-! ## Comparison rows (`buildComparison`, Spec2VecAnalysis.jsx)

Source:
```
const buildComparison = (cosineResults, sv2Results) => \x7b
  if (!cosineResults?.length && !sv2Results?.length) return [];
  const cosineRankMap = \x7b\x7d;
  cosineResults.forEach((m, i) => \x7b cosineRankMap[m.id] = i + 1; \x7d);
  return sv2Results.slice(0, 10).map((mol, i) => \x7b
    const sv2Rank = i + 1;
    const cosineRank = cosineRankMap[mol.id] ?? null;
    const delta = cosineRank !== null ? cosineRank - sv2Rank : null;
    const cosineEntry = cosineResults.find((m) => m.id === mol.id);
    const cosineSim = cosineEntry?.similarity ?? null;
    const nMatches = cosineEntry?.n_matches ?? null;
    const falsePosWarning = cosineSim !== null && cosineSim >= 0.65
      && nMatches !== null && nMatches < 5;
    return \x7b mol, sv2Rank, cosineRank, delta, cosineSim,
      sv2Sim: mol.similarity, nMatches, falsePosWarning,
      aiOnly: cosineRank === null \x7d;
  \x7d);
\x7d;
```
-/

/-- A match-result entry as produced by the backend searches: id, cosine
(fragment-overlap) or Spec2Vec similarity, and matched-peak count. -/
structure MatchEntry where
  id : ℕ
  similarity : ℚ
  n_matches : ℕ
  deriving DecidableEq

/-- Auxiliary loop for `cosineRankOf`: `forEach` over the list with running
index, later assignments to the same id overwriting earlier ones. -/
def cosineRankAux (molId : ℕ) : List MatchEntry → ℕ → Option ℕ → Option ℕ
  | [], _, acc => acc
  | m :: rest, k, acc =>
    cosineRankAux molId rest (k + 1) (if m.id = molId then some (k + 1) else acc)

/-- Translation of the `cosineRankMap` lookup: 1-based rank of the last
entry of `cosineResults` carrying `molId`, `none` when absent. -/
def cosineRankOf (cosineResults : List MatchEntry) (molId : ℕ) : Option ℕ :=
  cosineRankAux molId cosineResults 0 none

/-- One merged comparison row, as assembled by `buildComparison`. -/
structure ComparisonRow where
  mol : MatchEntry
  sv2Rank : ℕ
  cosineRank : Option ℕ
  delta : Option ℤ
  cosineSim : Option ℚ
  sv2Sim : ℚ
  nMatches : Option ℕ
  falsePosWarning : Bool
  aiOnly : Bool
  deriving DecidableEq

/-- Row construction step of `buildComparison` for the `i`-th Spec2Vec
candidate `mol`. -/
def buildComparisonRow (cosineResults : List MatchEntry) (i : ℕ)
    (mol : MatchEntry) : ComparisonRow :=
  let sv2Rank := i + 1
  let cosineRank := cosineRankOf cosineResults mol.id
  let delta : Option ℤ :=
    match cosineRank with
    | some c => some ((c : ℤ) - (sv2Rank : ℤ))
    | none => none
  let cosineEntry := cosineResults.find? (fun m => m.id = mol.id)
  let cosineSim : Option ℚ := cosineEntry.map MatchEntry.similarity
  let nM : Option ℕ := cosineEntry.map MatchEntry.n_matches
  let falsePosWarning : Bool :=
    match cosineSim, nM with
    | some s, some n => decide (65 / 100 ≤ s) && decide (n < 5)
    | _, _ => false
  { mol := mol, sv2Rank := sv2Rank, cosineRank := cosineRank, delta := delta,
    cosineSim := cosineSim, sv2Sim := mol.similarity, nMatches := nM,
    falsePosWarning := falsePosWarning, aiOnly := cosineRank.isNone }

/-- Translation of `buildComparison`. -/
def buildComparison (cosineResults sv2Results : List MatchEntry) :
    List ComparisonRow :=
  if cosineResults.isEmpty ∧ sv2Results.isEmpty then []
  else (sv2Results.take 10).enum.map
    (fun im => buildComparisonRow cosineResults im.1 im.2)

/-! ## Sequential per-peak batch search (`handleBroadActivate` /
`handleActivate`, Spec2VecAnalysis.jsx)

Source (broad variant):
```
const results = \x7b\x7d;
for (const peak of chrom.peaks) \x7b
  try \x7b
    const res = await fetch(...);
    const data = await res.json();
    results[peak.id] = data.results ?? [];
  \x7d catch \x7b
    results[peak.id] = [];
  \x7d
  setBroadResults(\x7b ...results \x7d);
\x7d
```
The per-peak network search is abstracted as an oracle
`searchPeak : BatchPeak → Option (List ℕ)`, where `none` models a thrown /
rejected fetch (the `catch` branch) and `some rs` a successful response
whose parsed `results` list is `rs`.
-/

/-- A peak of the batch; only its id matters for the results map. -/
structure BatchPeak where
  id : ℕ
  deriving DecidableEq

/-- One `results[peak.id] = v` assignment on the accumulated map. -/
def recordResult (results : ℕ → Option (List ℕ)) (peakId : ℕ) (v : List ℕ) :
    ℕ → Option (List ℕ) :=
  fun k => if k = peakId then some v else results k

/-- The sequential `for (const peak of chrom.peaks)` loop: one peak at a
time, a failed search (`none`) recorded as the empty result set. -/
def runBatch (searchPeak : BatchPeak → Option (List ℕ)) :
    List BatchPeak → (ℕ → Option (List ℕ)) → (ℕ → Option (List ℕ))
  | [], results => results
  | peak :: rest, results =>
    runBatch searchPeak rest
      (recordResult results peak.id ((searchPeak peak).getD []))

/-- Final accumulated results map of the batch loop, starting empty. -/
def batchResults (searchPeak : BatchPeak → Option (List ℕ))
    (peaks : List BatchPeak) : ℕ → Option (List ℕ) :=
  runBatch searchPeak peaks (fun _ => none)

/-- The sequence of partial-results maps published after each peak
(`setBroadResults` / `setAllResults` after every iteration). -/
def batchSnapshots (searchPeak : BatchPeak → Option (List ℕ)) :
    List BatchPeak → (ℕ → Option (List ℕ)) → List (ℕ → Option (List ℕ))
  | [], _ => []
  | peak :: rest, results =>
    let results2 := recordResult results peak.id ((searchPeak peak).getD [])
    results2 :: batchSnapshots searchPeak rest results2

/-! ## Broad-index status polling (`useEffect`, Spec2VecAnalysis.jsx)

Source:
```
const poll = () => \x7b
  fetch(...broad-index-status).then((r) => r.json()).then((s) => \x7b
    setBroadStatus(s);
    if (s.state === "building") \x7b
      pollRef.current = setTimeout(poll, 1500);
    \x7d
  \x7d).catch(() => \x7b \x7d);
\x7d;
poll();
return () => clearTimeout(pollRef.current);
```
A run of the loop is determined by the sequence of states the backend
reports; `pollTimes responses t` lists the instants (in ms, starting at
`t`) at which a status request is issued, each re-poll scheduled 1500 ms
after the response that reported `building`.
-/

/-- Broad-index lifecycle states as observed by the poller. -/
inductive BroadIndexState where
  | building
  | ready
  | errored
  deriving DecidableEq

/-- Fixed re-poll delay of the reference implementation (ms). -/
def pollDelayMs : ℕ := 1500

/-- Poll instants of the loop given the successive reported states: the
first poll fires immediately; each `building` response schedules exactly
one more poll `pollDelayMs` later; any other response schedules nothing. -/
def pollTimes : List BroadIndexState → ℕ → List ℕ
  | [], _ => []
  | s :: rest, t =>
    t :: (if s = .building then pollTimes rest (t + pollDelayMs) else [])

/-- Length of the initial run of `building` responses. -/
def buildingPrefixLen (l : List BroadIndexState) : ℕ :=
  (l.takeWhile (fun s => decide (s = .building))).length

/-- The consumer-side handle holding the pending `setTimeout` id
(`pollRef.current`). -/
structure PollerHandle where
  timer : Option ℕ

/-- Teardown effect of the `useEffect` cleanup:
`clearTimeout(pollRef.current)` leaves no pending timer. -/
def cleanupPoller (_h : PollerHandle) : PollerHandle :=
  { timer := none }

/-! ## The embedding pipeline (`gaussianSmooth` / `peaksToVector`,
SpectralMatching.jsx), over ℝ

Source:
```
function gaussianSmooth(arr, sigma = 1.2) \x7b
  const radius = Math.max(1, Math.floor(3 * sigma));
  const kernel = []; let ksum = 0;
  for (let i = -radius; i <= radius; i++) \x7b
    const v = Math.exp(-0.5 * (i / sigma) ** 2);
    kernel.push(v); ksum += v;
  \x7d
  for (let i = 0; i < kernel.length; i++) kernel[i] /= ksum;
  const out = new Float64Array(arr.length);
  for (let i = 0; i < arr.length; i++) \x7b
    let val = 0;
    for (let k = 0; k < kernel.length; k++) \x7b
      const j = i + k - radius;
      if (j >= 0 && j < arr.length) val += arr[j] * kernel[k];
    \x7d
    out[i] = val;
  \x7d
  return out;
\x7d

function peaksToVector(peaks) \x7b
  const bins = new Float64Array(DIM);
  const maxI = Math.max(...peaks.map((p) => p.intensity));
  if (!maxI) return bins;
  peaks.forEach((p) => \x7b
    if (p.mz < MZ_LO || p.mz > MZ_HI) return;
    const idx = Math.min(DIM - 1,
      Math.floor((p.mz - MZ_LO) / (MZ_HI - MZ_LO) * (DIM - 1)));
    const val = p.intensity / maxI;
    if (val > bins[idx]) bins[idx] = val;
  \x7d);
  const smoothed = gaussianSmooth(bins);
  let norm = 0;
  for (let i = 0; i < DIM; i++) norm += smoothed[i] * smoothed[i];
  norm = Math.sqrt(norm);
  return norm > 0 ? smoothed.map((v) => v / norm) : smoothed;
\x7d
```
Bins are modelled as total functions `ℤ → ℝ` (the source only ever writes
indices in `[0, DIM)` thanks to the window guard and the clamp, and
`gaussianSmooth` guards every read with `0 ≤ j < arr.length`).
-/

/-- A fragment peak: m/z position and intensity. -/
structure Peak where
  mz : ℝ
  intensity : ℝ

/-- Lower edge of the m/z window (`MZ_LO = 30`). -/
def MZ_LO : ℝ := 30

/-- Upper edge of the m/z window (`MZ_HI = 1100`). -/
def MZ_HI : ℝ := 1100

/-- One step of the JS `Math.max(...)` spread over a list. -/
noncomputable def jsMaxStep (acc : Option ℝ) (x : ℝ) : Option ℝ :=
  match acc with
  | none => some x
  | some m => some (max m x)

/-- `Math.max(...l)`: `none` models the `-Infinity` result on an empty
argument list, `some m` the maximum otherwise. -/
noncomputable def jsMax (l : List ℝ) : Option ℝ :=
  l.foldl jsMaxStep none

/-- Bin index of a peak:
`Math.min(DIM - 1, Math.floor((mz - MZ_LO) / (MZ_HI - MZ_LO) * (DIM - 1)))`. -/
noncomputable def binIndexZ (mz : ℝ) : ℤ :=
  min ((DIM : ℤ) - 1) ⌊(mz - MZ_LO) / (MZ_HI - MZ_LO) * ((DIM : ℝ) - 1)⌋

/-- Body of the `peaks.forEach` loop: out-of-window peaks are skipped, an
in-window peak writes `intensity / maxI` into its bin when that exceeds the
bin's current value. -/
noncomputable def updateBins (maxI : ℝ) (bins : ℤ → ℝ) (p : Peak) : ℤ → ℝ :=
  if p.mz < MZ_LO ∨ MZ_HI < p.mz then bins
  else fun i =>
    if i = binIndexZ p.mz ∧ bins i < p.intensity / maxI then p.intensity / maxI
    else bins i

/-- The filled bin array after the `forEach` loop. -/
noncomputable def binsOf (peaks : List Peak) (maxI : ℝ) : ℤ → ℝ :=
  peaks.foldl (updateBins maxI) (fun _ => 0)

/-- Default smoothing width (`sigma = 1.2`). -/
noncomputable def sigmaDefault : ℝ := 12 / 10

/-- Kernel radius: `Math.max(1, Math.floor(3 * sigma))`. -/
noncomputable def gaussRadius (sigma : ℝ) : ℤ :=
  max 1 ⌊3 * sigma⌋

/-- Unnormalized kernel tap `k` (for offset `k - radius` in
`[-radius, radius]`): `Math.exp(-0.5 * (i / sigma) ** 2)`. -/
noncomputable def gaussKernelRaw (sigma : ℝ) (radius k : ℕ) : ℝ :=
  Real.exp (-(1 / 2) * (((k : ℝ) - (radius : ℝ)) / sigma) ^ 2)

/-- Sum of the raw kernel taps (`ksum`). -/
noncomputable def gaussKernelSum (sigma : ℝ) (radius : ℕ) : ℝ :=
  ∑ k in Finset.range (2 * radius + 1), gaussKernelRaw sigma radius k

/-- Normalized kernel tap (`kernel[i] /= ksum`). -/
noncomputable def gaussKernel (sigma : ℝ) (radius k : ℕ) : ℝ :=
  gaussKernelRaw sigma radius k / gaussKernelSum sigma radius

/-- Translation of `gaussianSmooth` on an array of length `n`: output bin
`i` sums `arr[j] * kernel[k]` over the taps whose source index
`j = i + k - radius` is in range; out-of-range taps are simply omitted. -/
noncomputable def gaussianSmooth (arr : ℤ → ℝ) (n : ℕ) (sigma : ℝ) : ℤ → ℝ :=
  fun i =>
    ∑ k in Finset.range (2 * (gaussRadius sigma).toNat + 1),
      if 0 ≤ i + k - (gaussRadius sigma).toNat ∧
          i + k - (gaussRadius sigma).toNat < n then
        arr (i + k - (gaussRadius sigma).toNat) *
          gaussKernel sigma (gaussRadius sigma).toNat k
      else 0

/-- L2 norm over the `DIM` slots (`norm` accumulation + `Math.sqrt`). -/
noncomputable def l2NormOf (s : ℤ → ℝ) : ℝ :=
  Real.sqrt (∑ i in Finset.range DIM, s (i : ℤ) ^ 2)

/-- Tail of `peaksToVector` after the bins are filled: smooth, compute the
L2 norm, divide by it when positive, return the smoothed vector as-is
otherwise. -/
noncomputable def finishVec (bins : ℤ → ℝ) : List ℝ :=
  if 0 < l2NormOf (gaussianSmooth bins DIM sigmaDefault) then
    (List.range DIM).map
      (fun i : ℕ => gaussianSmooth bins DIM sigmaDefault (i : ℤ)
        / l2NormOf (gaussianSmooth bins DIM sigmaDefault))
  else
    (List.range DIM).map
      (fun i : ℕ => gaussianSmooth bins DIM sigmaDefault (i : ℤ))

/-- Translation of `peaksToVector`.  In the `none` branch (`peaks` empty)
the JS `maxI` is `-Infinity`, which is truthy, so the early return is NOT
taken; the `forEach` body never runs (the list is empty) and the zero bins
flow into the smoothing — any `maxI` value is extensionally equivalent
there, `0` is used.  The early return `if (!maxI) return bins` fires
exactly when the maximum intensity is `0` and yields the raw zero bins. -/
noncomputable def peaksToVector (peaks : List Peak) : List ℝ :=
  match jsMax (peaks.map Peak.intensity) with
  | none => finishVec (binsOf peaks 0)
  | some maxI =>
    if maxI = 0 then (List.range DIM).map (fun _ => (0 : ℝ))
    else finishVec (binsOf peaks maxI)

/-! ## Theorems -/

lemma pollTimes_eq (responses : List BroadIndexState) :
    ∀ startT : ℕ, pollTimes responses startT
      = (List.range (min (buildingPrefixLen responses + 1) responses.length)).map
          (fun k => startT + pollDelayMs * k) := by
  induction responses with
  | nil => intro t; simp [pollTimes, buildingPrefixLen]
  | cons s rest ih =>
    intro t
    by_cases hs : s = BroadIndexState.building
    · subst hs
      have hbp : buildingPrefixLen (BroadIndexState.building :: rest)
          = buildingPrefixLen rest + 1 := by
        simp [buildingPrefixLen, List.takeWhile]
      rw [hbp]
      have hmin : min (buildingPrefixLen rest + 1 + 1) (rest.length + 1)
          = min (buildingPrefixLen rest + 1) rest.length + 1 :=
        Nat.succ_min_succ _ _
      simp only [pollTimes, if_pos rfl, List.length_cons, hmin,
        List.range_succ_eq_map, List.map_cons, List.map_map]
      refine congrArg₂ _ (by ring) ?_
      rw [ih (t + pollDelayMs)]
      refine List.map_congr_left (fun k _ => ?_)
      simp [Function.comp]
      ring
    · have hbp : buildingPrefixLen (s :: rest) = 0 := by
        simp [buildingPrefixLen, List.takeWhile, hs]
      rw [hbp]
      have hmin : min (0 + 1) (rest.length + 1) = 1 := by omega
      simp only [pollTimes, if_neg hs, List.length_cons, hmin]
      simp [List.range_succ]

/-- C8: the broad-index status polling loop re-polls on a fixed
`pollDelayMs = 1500` ms interval exactly while the reported state is
`building` (poll k fires at `startT + 1500·k`, and there are
`min (buildingPrefixLen + 1) (number of responses)` polls, so no poll is
ever scheduled after a `ready` or `errored` response), and the consumer
teardown clears any pending timer. -/
theorem pollLoop_correct (responses : List BroadIndexState) (startT : ℕ) :
    pollTimes responses startT
      = (List.range (min (buildingPrefixLen responses + 1) responses.length)).map
          (fun k => startT + pollDelayMs * k)
    ∧ (pollTimes responses startT).length ≤ buildingPrefixLen responses + 1
    ∧ ∀ h : PollerHandle, (cleanupPoller h).timer = none := by
  refine ⟨pollTimes_eq responses startT, ?_, fun h => rfl⟩
  rw [pollTimes_eq responses startT]
  simp only [List.length_map, List.length_range]
  exact min_le_left _ _

/-- C10: `simCategory` returns `HIGH` exactly when the similarity is at
least 0.65 and at least 5 peaks matched, `GREY` exactly when it is not
`HIGH` but the similarity is at least 0.40 with at least 2 matched peaks,
and `NONE` otherwise; in particular a 0.70 similarity with only 3 matched
peaks is not `HIGH`. -/
theorem simCategory_correct (sim : ℚ) (n_matches : ℕ) :
    (simCategory sim n_matches = .HIGH ↔ 65 / 100 ≤ sim ∧ 5 ≤ n_matches)
    ∧ (simCategory sim n_matches = .GREY ↔
        ¬(65 / 100 ≤ sim ∧ 5 ≤ n_matches) ∧ 40 / 100 ≤ sim ∧ 2 ≤ n_matches)
    ∧ (simCategory sim n_matches = .NONE ↔
        ¬(65 / 100 ≤ sim ∧ 5 ≤ n_matches) ∧ ¬(40 / 100 ≤ sim ∧ 2 ≤ n_matches))
    ∧ simCategory (7 / 10) 3 ≠ .HIGH := by
  refine ⟨?_, ?_, ?_, by norm_num [simCategory]; decide⟩
  all_goals
    unfold simCategory
    split_ifs with h1 h2 <;> simp_all

/-- C9: for every peak whose m/z lies in the window `[30, 1100]` the bin
index computed by `peaksToVector` lies in `[0, DIM - 1] = [0, 299]`, and
the explicit clamp bounds the index by `DIM - 1` for every m/z value
whatsoever, so no out-of-range bin write is possible. -/
theorem binIndex_inRange (mz : ℝ) (h1 : MZ_LO ≤ mz) (h2 : mz ≤ MZ_HI) :
    (0 ≤ binIndexZ mz ∧ binIndexZ mz ≤ (DIM : ℤ) - 1)
    ∧ ∀ x : ℝ, binIndexZ x ≤ (DIM : ℤ) - 1 := by
  have hLO : MZ_LO = (30 : ℝ) := rfl
  have hHI : MZ_HI = (1100 : ℝ) := rfl
  refine ⟨⟨?_, min_le_left _ _⟩, fun x => min_le_left _ _⟩
  refine le_min (by norm_num [DIM]) ?_
  refine Int.floor_nonneg.mpr ?_
  have hnum : (0 : ℝ) ≤ mz - MZ_LO := by linarith
  have hden : (0 : ℝ) ≤ MZ_HI - MZ_LO := by rw [hLO, hHI]; norm_num
  have hdim : (0 : ℝ) ≤ (DIM : ℝ) - 1 := by norm_num [DIM]
  exact mul_nonneg (div_nonneg hnum hden) hdim

/-- Witness for C9 at the boundary `mz = 1100`. -/
theorem binIndex_inRange_witness :
    MZ_LO ≤ (1100 : ℝ) ∧ (1100 : ℝ) ≤ MZ_HI
    ∧ ((0 ≤ binIndexZ 1100 ∧ binIndexZ 1100 ≤ (DIM : ℤ) - 1)
        ∧ ∀ x : ℝ, binIndexZ x ≤ (DIM : ℤ) - 1) :=
  ⟨by norm_num [MZ_LO], by norm_num [MZ_HI],
    binIndex_inRange 1100 (by norm_num [MZ_LO]) (by norm_num [MZ_HI])⟩

lemma runBatch_preserve (searchPeak : BatchPeak → Option (List ℕ)) :
    ∀ (peaks : List BatchPeak) (acc : ℕ → Option (List ℕ)) (k : ℕ),
      (∀ p ∈ peaks, p.id ≠ k) → runBatch searchPeak peaks acc k = acc k := by
  intro peaks
  induction peaks with
  | nil => intro acc k _; rfl
  | cons q rest ih =>
    intro acc k h
    have hq : q.id ≠ k := h q (List.mem_cons_self q rest)
    have := ih (recordResult acc q.id ((searchPeak q).getD [])) k
      (fun p hp => h p (List.mem_cons_of_mem q hp))
    rw [runBatch, this, recordResult, if_neg (fun hk => hq hk.symm)]

lemma runBatch_lookup (searchPeak : BatchPeak → Option (List ℕ)) :
    ∀ (peaks : List BatchPeak) (acc : ℕ → Option (List ℕ)),
      (peaks.map BatchPeak.id).Nodup →
      ∀ p ∈ peaks, runBatch searchPeak peaks acc p.id
        = some ((searchPeak p).getD []) := by
  intro peaks
  induction peaks with
  | nil => intro acc _ p hp; cases hp
  | cons q rest ih =>
    intro acc hnd p hp
    have hnd2 : (∀ x ∈ rest, ¬x.id = q.id)
        ∧ (List.map BatchPeak.id rest).Nodup := by
      simpa using hnd
    rcases List.mem_cons.mp hp with hpq | hpr
    · subst hpq
      have hne : ∀ r ∈ rest, r.id ≠ p.id := fun r hr => hnd2.1 r hr
      rw [runBatch, runBatch_preserve searchPeak rest _ p.id hne,
        recordResult, if_pos rfl]
    · exact ih _ hnd2.2 p hpr

lemma batchSnapshots_eq (searchPeak : BatchPeak → Option (List ℕ)) :
    ∀ (peaks : List BatchPeak) (acc : ℕ → Option (List ℕ)),
      batchSnapshots searchPeak peaks acc
        = (List.range peaks.length).map
            (fun k => runBatch searchPeak (peaks.take (k + 1)) acc) := by
  intro peaks
  induction peaks with
  | nil => intro acc; rfl
  | cons q rest ih =>
    intro acc
    rw [batchSnapshots]
    simp only [List.length_cons, List.range_succ_eq_map, List.map_cons,
      List.map_map]
    refine congrArg₂ _ rfl ?_
    rw [ih (recordResult acc q.id ((searchPeak q).getD []))]
    refine List.map_congr_left (fun k _ => ?_)
    simp only [Function.comp, List.take_succ_cons]
    rfl

/-- C6: the sequential per-peak batch search records, for every peak of
the batch, exactly the oracle's result (empty list when that peak's search
failed, i.e. the oracle returned `none`) — a failure never aborts the
remaining peaks — and the published partial-results snapshots are, in peak
order, the results of the successive prefixes of the batch. -/
theorem runBatch_total (searchPeak : BatchPeak → Option (List ℕ))
    (peaks : List BatchPeak) (hids : (peaks.map BatchPeak.id).Nodup) :
    (∀ p ∈ peaks, batchResults searchPeak peaks p.id
        = some ((searchPeak p).getD []))
    ∧ (∀ p ∈ peaks, searchPeak p = none →
        batchResults searchPeak peaks p.id = some [])
    ∧ batchSnapshots searchPeak peaks (fun _ => none)
        = (List.range peaks.length).map
            (fun k => batchResults searchPeak (peaks.take (k + 1))) := by
  refine ⟨fun p hp => runBatch_lookup searchPeak peaks _ hids p hp,
    fun p hp hfail => ?_, batchSnapshots_eq searchPeak peaks _⟩
  have := runBatch_lookup searchPeak peaks (fun _ => none) hids p hp
  rw [hfail] at this
  exact this

/-- Witness for C6: a three-peak batch whose middle search fails still
yields an entry for every peak, the failed one empty. -/
theorem runBatch_total_witness :
    (([⟨1⟩, ⟨2⟩, ⟨3⟩] : List BatchPeak).map BatchPeak.id).Nodup
    ∧ ((∀ p ∈ ([⟨1⟩, ⟨2⟩, ⟨3⟩] : List BatchPeak),
          batchResults (fun q => if q.id = 2 then none else some [q.id * 10])
            [⟨1⟩, ⟨2⟩, ⟨3⟩] p.id
          = some (((fun q : BatchPeak =>
              if q.id = 2 then none else some [q.id * 10]) p).getD []))
      ∧ (∀ p ∈ ([⟨1⟩, ⟨2⟩, ⟨3⟩] : List BatchPeak),
          (fun q : BatchPeak => if q.id = 2 then none else some [q.id * 10]) p
              = none →
          batchResults (fun q => if q.id = 2 then none else some [q.id * 10])
            [⟨1⟩, ⟨2⟩, ⟨3⟩] p.id = some [])
      ∧ batchSnapshots (fun q => if q.id = 2 then none else some [q.id * 10])
            [⟨1⟩, ⟨2⟩, ⟨3⟩] (fun _ => none)
          = (List.range ([⟨1⟩, ⟨2⟩, ⟨3⟩] : List BatchPeak).length).map
              (fun k => batchResults
                (fun q => if q.id = 2 then none else some [q.id * 10])
                (([⟨1⟩, ⟨2⟩, ⟨3⟩] : List BatchPeak).take (k + 1)))) :=
  ⟨by decide, runBatch_total _ _ (by decide)⟩

lemma cosineRankAux_eq_none (molId : ℕ) :
    ∀ (l : List MatchEntry) (k : ℕ) (acc : Option ℕ),
      (cosineRankAux molId l k acc = none ↔
        acc = none ∧ ∀ m ∈ l, m.id ≠ molId) := by
  intro l
  induction l with
  | nil => intro k acc; simp [cosineRankAux]
  | cons m rest ih =>
    intro k acc
    rw [cosineRankAux, ih]
    by_cases hm : m.id = molId
    · simp [hm]
    · simp only [if_neg hm, List.mem_cons]
      constructor
      · rintro ⟨ha, hrest⟩
        exact ⟨ha, fun x hx => hx.elim (fun he => he ▸ hm) (hrest x)⟩
      · rintro ⟨ha, hall⟩
        exact ⟨ha, fun x hx => hall x (Or.inr hx)⟩

lemma mem_buildComparison {cosineResults sv2Results : List MatchEntry}
    {row : ComparisonRow}
    (h : row ∈ buildComparison cosineResults sv2Results) :
    ∃ i mol, (i, mol) ∈ (sv2Results.take 10).enum
      ∧ row = buildComparisonRow cosineResults i mol := by
  unfold buildComparison at h
  split_ifs at h with hempty
  · cases h
  · rcases List.mem_map.mp h with ⟨⟨i, mol⟩, hmem, heq⟩
    exact ⟨i, mol, hmem, heq.symm⟩

/-- C5: every row produced by `buildComparison` has `delta = null` exactly
when the candidate is absent from the fragment-overlap (cosine) ranking
(AI-only), has `delta = cosineRank - sv2Rank` whenever a cosine rank
exists, and its low-confidence flag is set exactly when the candidate's
fragment-overlap similarity is at least 0.65 while its matched-peak count
is below 5. -/
theorem buildComparison_correct (cosineResults sv2Results : List MatchEntry)
    (row : ComparisonRow)
    (hrow : row ∈ buildComparison cosineResults sv2Results) :
    (row.delta = none ↔ row.cosineRank = none)
    ∧ (row.cosineRank = none ↔ ∀ m ∈ cosineResults, m.id ≠ row.mol.id)
    ∧ (∀ c, row.cosineRank = some c →
        row.delta = some ((c : ℤ) - (row.sv2Rank : ℤ)))
    ∧ (row.falsePosWarning = true ↔
        ∃ e, cosineResults.find? (fun m => m.id = row.mol.id) = some e
          ∧ 65 / 100 ≤ e.similarity ∧ e.n_matches < 5)
    ∧ row.aiOnly = row.cosineRank.isNone := by
  obtain ⟨i, mol, _, heq⟩ := mem_buildComparison hrow
  subst heq
  refine ⟨?_, ?_, ?_, ?_, rfl⟩
  · cases hr : cosineRankOf cosineResults mol.id with
    | none => simp [buildComparisonRow, hr]
    | some c => simp [buildComparisonRow, hr]
  · rw [show (buildComparisonRow cosineResults i mol).cosineRank
        = cosineRankOf cosineResults mol.id from rfl,
      show (buildComparisonRow cosineResults i mol).mol = mol from rfl,
      cosineRankOf, cosineRankAux_eq_none]
    simp
  · intro c hc
    have hc2 : cosineRankOf cosineResults mol.id = some c := hc
    simp [buildComparisonRow, hc2]
  · cases hf : cosineResults.find? (fun m => m.id = mol.id) with
    | none => simp [buildComparisonRow, hf]
    | some e => simp [buildComparisonRow, hf, decide_eq_true_eq]

/-- Witness for C5: a concrete pair of rankings in which the top Spec2Vec
candidate has cosine similarity 0.7 with 3 matched peaks (flagged) while
the second has no cosine rank (AI-only). -/
theorem buildComparison_correct_witness :
    (buildComparisonRow [⟨1, 7 / 10, 3⟩] 0 ⟨1, 9 / 10, 0⟩
        ∈ buildComparison [⟨1, 7 / 10, 3⟩] [⟨1, 9 / 10, 0⟩, ⟨2, 1 / 2, 0⟩])
    ∧ ((buildComparisonRow [⟨1, 7 / 10, 3⟩] 0 ⟨1, 9 / 10, 0⟩).delta = none ↔
        (buildComparisonRow [⟨1, 7 / 10, 3⟩] 0 ⟨1, 9 / 10, 0⟩).cosineRank
          = none)
    ∧ ((buildComparisonRow [⟨1, 7 / 10, 3⟩] 0 ⟨1, 9 / 10, 0⟩).cosineRank
          = none ↔
        ∀ m ∈ [(⟨1, 7 / 10, 3⟩ : MatchEntry)],
          m.id ≠ (buildComparisonRow [⟨1, 7 / 10, 3⟩] 0 ⟨1, 9 / 10, 0⟩).mol.id)
    ∧ (∀ c, (buildComparisonRow [⟨1, 7 / 10, 3⟩] 0 ⟨1, 9 / 10, 0⟩).cosineRank
          = some c →
        (buildComparisonRow [⟨1, 7 / 10, 3⟩] 0 ⟨1, 9 / 10, 0⟩).delta
          = some ((c : ℤ) -
              ((buildComparisonRow [⟨1, 7 / 10, 3⟩] 0 ⟨1, 9 / 10, 0⟩).sv2Rank
                : ℤ)))
    ∧ ((buildComparisonRow [⟨1, 7 / 10, 3⟩] 0 ⟨1, 9 / 10, 0⟩).falsePosWarning
          = true ↔
        ∃ e, ([(⟨1, 7 / 10, 3⟩ : MatchEntry)]).find?
              (fun m => m.id =
                (buildComparisonRow [⟨1, 7 / 10, 3⟩] 0
                  ⟨1, 9 / 10, 0⟩).mol.id) = some e
          ∧ 65 / 100 ≤ e.similarity ∧ e.n_matches < 5)
    ∧ (buildComparisonRow [⟨1, 7 / 10, 3⟩] 0 ⟨1, 9 / 10, 0⟩).aiOnly
        = (buildComparisonRow [⟨1, 7 / 10, 3⟩] 0
            ⟨1, 9 / 10, 0⟩).cosineRank.isNone := by
  have hmem : buildComparisonRow [⟨1, 7 / 10, 3⟩] 0 ⟨1, 9 / 10, 0⟩
      ∈ buildComparison [⟨1, 7 / 10, 3⟩] [⟨1, 9 / 10, 0⟩, ⟨2, 1 / 2, 0⟩] := by
    unfold buildComparison
    rw [if_neg (by simp)]
    exact List.mem_map.mpr ⟨(0, ⟨1, 9 / 10, 0⟩), by simp [List.enum], rfl⟩
  exact ⟨hmem, buildComparison_correct _ _ _ hmem⟩

lemma mem_lexInsert {a c : ℕ × ℚ × LibraryEntry} :
    ∀ {l}, c ∈ lexInsert a l ↔ c = a ∨ c ∈ l := by
  intro l
  induction l with
  | nil => simp [lexInsert]
  | cons b l ih =>
    rw [lexInsert]
    split_ifs with h
    · simp [List.mem_cons]
    · simp only [List.mem_cons, ih]
      tauto

lemma mem_lexSort {c : ℕ × ℚ × LibraryEntry} :
    ∀ {l}, c ∈ lexSort l → c ∈ l := by
  intro l
  induction l with
  | nil => exact fun h => h
  | cons a l ih =>
    intro h
    rcases mem_lexInsert.mp h with rfl | h2
    · exact List.mem_cons_self _ _
    · exact List.mem_cons_of_mem _ (ih h2)

lemma le_fst_of_mem_enumFrom :
    ∀ (l : List (ℚ × LibraryEntry)) (j : ℕ) (b : ℕ × ℚ × LibraryEntry),
      b ∈ List.enumFrom j l → j ≤ b.1 := by
  intro l
  induction l with
  | nil => intro j b h; cases h
  | cons x l ih =>
    intro j b h
    rcases List.mem_cons.mp h with rfl | h2
    · exact le_refl _
    · exact le_trans (Nat.le_succ j) (ih (j + 1) b h2)

lemma map_snd_lexInsert (a : ℕ × ℚ × LibraryEntry) :
    ∀ (l : List (ℕ × ℚ × LibraryEntry)), (∀ b ∈ l, a.1 < b.1) →
      (lexInsert a l).map Prod.snd = insertBySimDesc a.2 (l.map Prod.snd) := by
  intro l
  induction l with
  | nil => intro; rfl
  | cons b l ih =>
    intro h
    have hab : a.1 < b.1 := h b (List.mem_cons_self b l)
    rw [lexInsert, List.map_cons]
    by_cases hc : (b.2).1 ≤ (a.2).1
    · have hcond : b.2.1 < a.2.1 ∨ (a.2.1 = b.2.1 ∧ a.1 < b.1) := by
        rcases lt_or_eq_of_le hc with hlt | heq
        · exact Or.inl hlt
        · exact Or.inr ⟨heq.symm, hab⟩
      rw [if_pos hcond, insertBySimDesc, if_pos hc]
      rfl
    · have hlt : (a.2).1 < (b.2).1 := lt_of_not_le hc
      have hcond : ¬(b.2.1 < a.2.1 ∨ (a.2.1 = b.2.1 ∧ a.1 < b.1)) := by
        rintro (h1 | ⟨heq, _⟩)
        · exact absurd h1 (not_lt_of_gt hlt)
        · exact absurd heq (ne_of_lt hlt)
      rw [if_neg hcond, insertBySimDesc, if_neg hc, List.map_cons,
        ih (fun x hx => h x (List.mem_cons_of_mem b hx))]

lemma map_snd_lexSort :
    ∀ (l : List (ℚ × LibraryEntry)) (k : ℕ),
      (lexSort (List.enumFrom k l)).map Prod.snd = sortBySimDesc l := by
  intro l
  induction l with
  | nil => intro k; rfl
  | cons x l ih =>
    intro k
    have hcond : ∀ b ∈ lexSort (List.enumFrom (k + 1) l), (k, x).1 < b.1 :=
      fun b hb => lt_of_lt_of_le (Nat.lt_succ_self k)
        (le_fst_of_mem_enumFrom l (k + 1) b (mem_lexSort hb))
    rw [show List.enumFrom k (x :: l) = (k, x) :: List.enumFrom (k + 1) l
        from rfl,
      lexSort, map_snd_lexInsert _ _ hcond, ih (k + 1)]
    rfl

lemma mem_insertBySimDesc {x c : ℚ × LibraryEntry} :
    ∀ {l}, c ∈ insertBySimDesc x l ↔ c = x ∨ c ∈ l := by
  intro l
  induction l with
  | nil => simp [insertBySimDesc]
  | cons y l ih =>
    rw [insertBySimDesc]
    split_ifs with h
    · simp [List.mem_cons]
    · simp only [List.mem_cons, ih]
      tauto

lemma pairwise_insertBySimDesc (x : ℚ × LibraryEntry) :
    ∀ (l : List (ℚ × LibraryEntry)),
      List.Pairwise (fun a b => b.1 ≤ a.1) l →
      List.Pairwise (fun a b => b.1 ≤ a.1) (insertBySimDesc x l) := by
  intro l
  induction l with
  | nil => intro; simp [insertBySimDesc]
  | cons y l ih =>
    intro hp
    rcases List.pairwise_cons.mp hp with ⟨hy, hl⟩
    rw [insertBySimDesc]
    split_ifs with h
    · refine List.pairwise_cons.mpr ⟨?_, hp⟩
      intro c hc
      rcases List.mem_cons.mp hc with rfl | hc2
      · exact h
      · exact le_trans (hy c hc2) h
    · refine List.pairwise_cons.mpr ⟨?_, ih hl⟩
      intro c hc
      rcases mem_insertBySimDesc.mp hc with rfl | hc2
      · exact le_of_not_le h
      · exact hy c hc2

lemma pairwise_sortBySimDesc :
    ∀ (l : List (ℚ × LibraryEntry)),
      List.Pairwise (fun a b => b.1 ≤ a.1) (sortBySimDesc l) := by
  intro l
  induction l with
  | nil => simp [sortBySimDesc]
  | cons x l ih => exact pairwise_insertBySimDesc x _ ih

lemma length_insertBySimDesc (x : ℚ × LibraryEntry) :
    ∀ (l : List (ℚ × LibraryEntry)),
      (insertBySimDesc x l).length = l.length + 1 := by
  intro l
  induction l with
  | nil => rfl
  | cons y l ih =>
    rw [insertBySimDesc]
    split_ifs with h
    · rfl
    · simp [ih]

lemma length_sortBySimDesc :
    ∀ (l : List (ℚ × LibraryEntry)), (sortBySimDesc l).length = l.length := by
  intro l
  induction l with
  | nil => rfl
  | cons x l ih => rw [sortBySimDesc, length_insertBySimDesc, ih]; rfl

/-- C4: the full-scan ranking of `handleSearch` coincides with the
spec-level ranking (sort by clamped cosine similarity descending, ties
broken by original library index, then take the first `topN`), its output
is sorted in descending similarity order, has exactly
`min topN (library size)` entries, and is empty for an empty library. -/
theorem handleSearchRank_correct (queryVec : List ℚ) (embs : List LibraryEntry)
    (topN : ℕ) :
    handleSearchRank queryVec embs topN = rankSpec queryVec embs topN
    ∧ List.Pairwise (fun a b => b.1 ≤ a.1) (handleSearchRank queryVec embs topN)
    ∧ (handleSearchRank queryVec embs topN).length = min topN embs.length
    ∧ handleSearchRank queryVec [] topN = [] := by
  refine ⟨?_, ?_, ?_, by simp [handleSearchRank, scoreLibrary, sortBySimDesc]⟩
  · unfold handleSearchRank rankSpec
    rw [show (scoreLibrary queryVec embs).enum
        = List.enumFrom 0 (scoreLibrary queryVec embs) from rfl,
      map_snd_lexSort]
  · exact List.Pairwise.sublist (List.take_sublist _ _)
      (pairwise_sortBySimDesc _)
  · rw [handleSearchRank, List.length_take, length_sortBySimDesc,
      scoreLibrary, List.length_map]

lemma gaussianSmooth_zero (n : ℕ) (sigma : ℝ) :
    gaussianSmooth (fun _ => 0) n sigma = fun _ => 0 := by
  funext i
  unfold gaussianSmooth
  refine Finset.sum_eq_zero (fun k _ => ?_)
  split_ifs <;> simp

lemma l2NormOf_zero : l2NormOf (fun _ => (0 : ℝ)) = 0 := by
  simp [l2NormOf]

lemma length_finishVec (bins : ℤ → ℝ) : (finishVec bins).length = DIM := by
  unfold finishVec
  split_ifs <;> simp

lemma finishVec_zeroBins :
    finishVec (fun _ => 0) = (List.range DIM).map (fun _ => (0 : ℝ)) := by
  unfold finishVec
  rw [gaussianSmooth_zero, l2NormOf_zero, if_neg (lt_irrefl 0)]

lemma getD_map_range (f : ℕ → ℝ) (n i : ℕ) (h : i < n) :
    ((List.range n).map f).getD i 0 = f i := by
  rw [List.getD_eq_getElem?_getD, List.getElem?_map, List.getElem?_range h]
  rfl

lemma finishVec_unit_or_zero (bins : ℤ → ℝ) :
    (∀ x ∈ finishVec bins, x = 0)
    ∨ ∑ i in Finset.range DIM, ((finishVec bins).getD i 0) ^ 2 = 1 := by
  by_cases hn : 0 < l2NormOf (gaussianSmooth bins DIM sigmaDefault)
  · right
    have hfv : finishVec bins
        = (List.range DIM).map
            (fun i : ℕ => gaussianSmooth bins DIM sigmaDefault (i : ℤ)
              / l2NormOf (gaussianSmooth bins DIM sigmaDefault)) := by
      unfold finishVec
      rw [if_pos hn]
    have hS : (0 : ℝ)
        < ∑ i in Finset.range DIM,
            gaussianSmooth bins DIM sigmaDefault (i : ℤ) ^ 2 :=
      Real.sqrt_pos.mp hn
    rw [hfv]
    calc ∑ i in Finset.range DIM,
          (((List.range DIM).map
            (fun i : ℕ => gaussianSmooth bins DIM sigmaDefault (i : ℤ)
              / l2NormOf (gaussianSmooth bins DIM sigmaDefault))).getD i 0) ^ 2
        = ∑ i in Finset.range DIM,
            gaussianSmooth bins DIM sigmaDefault (i : ℤ) ^ 2
              / l2NormOf (gaussianSmooth bins DIM sigmaDefault) ^ 2 := by
          refine Finset.sum_congr rfl (fun i hi => ?_)
          rw [getD_map_range _ _ _ (Finset.mem_range.mp hi), div_pow]
      _ = 1 := by
          rw [← Finset.sum_div, l2NormOf,
            Real.sq_sqrt (Finset.sum_nonneg (fun i _ => sq_nonneg _))]
          exact div_self (ne_of_gt hS)
  · left
    have hnrm : l2NormOf (gaussianSmooth bins DIM sigmaDefault) = 0 :=
      le_antisymm (not_lt.mp hn) (Real.sqrt_nonneg _)
    have hS : ∑ i in Finset.range DIM,
        gaussianSmooth bins DIM sigmaDefault (i : ℤ) ^ 2 = 0 :=
      (Real.sqrt_eq_zero
        (Finset.sum_nonneg (fun i _ => sq_nonneg _))).mp hnrm
    have hzero : ∀ i ∈ Finset.range DIM,
        gaussianSmooth bins DIM sigmaDefault (i : ℤ) ^ 2 = 0 :=
      (Finset.sum_eq_zero_iff_of_nonneg (fun i _ => sq_nonneg _)).mp hS
    intro x hx
    have hfv : finishVec bins
        = (List.range DIM).map
            (fun i : ℕ => gaussianSmooth bins DIM sigmaDefault (i : ℤ)) := by
      unfold finishVec
      rw [if_neg hn]
    rw [hfv] at hx
    obtain ⟨i, hi, rfl⟩ := List.mem_map.mp hx
    exact pow_eq_zero_iff (n := 2) (by norm_num) |>.mp
      (hzero i (Finset.mem_range.mpr (List.mem_range.mp hi)))

/-- C1: `peaksToVector` always returns a vector of exactly `DIM = 300`
entries, and that vector is either all-zero or has unit L2 norm (the sum
of the squared entries is exactly 1). -/
theorem peaksToVector_dim_unitNorm (peaks : List Peak) :
    (peaksToVector peaks).length = DIM
    ∧ ((∀ x ∈ peaksToVector peaks, x = 0)
      ∨ ∑ i in Finset.range DIM, ((peaksToVector peaks).getD i 0) ^ 2 = 1) := by
  cases hjs : jsMax (peaks.map Peak.intensity) with
  | none =>
    simp only [peaksToVector, hjs]
    exact ⟨length_finishVec _, finishVec_unit_or_zero _⟩
  | some maxI =>
    by_cases hm : maxI = 0
    · simp only [peaksToVector, hjs, if_pos hm]
      refine ⟨by simp, Or.inl ?_⟩
      intro x hx
      obtain ⟨i, _, rfl⟩ := List.mem_map.mp hx
      rfl
    · simp only [peaksToVector, hjs, if_neg hm]
      exact ⟨length_finishVec _, finishVec_unit_or_zero _⟩

/-- C7: on an empty peak list (where the JS running maximum is
`-Infinity`, which is truthy, so the code falls through the main path) and
on a peak list whose intensities are all zero (where the early return
fires), `peaksToVector` returns the all-zero vector of length 300 and
raises no error. -/
theorem peaksToVector_zero_cases (peaks : List Peak)
    (h : peaks = [] ∨ ∀ p ∈ peaks, p.intensity = 0) :
    peaksToVector peaks = (List.range DIM).map (fun _ => (0 : ℝ))
    ∧ (peaksToVector peaks).length = DIM := by
  have hmain : peaksToVector peaks
      = (List.range DIM).map (fun _ => (0 : ℝ)) := by
    rcases h with rfl | hz
    · show finishVec (binsOf [] 0) = _
      exact finishVec_zeroBins
    · cases peaks with
      | nil =>
        show finishVec (binsOf [] 0) = _
        exact finishVec_zeroBins
      | cons p rest =>
        have hp0 : p.intensity = 0 := hz p (List.mem_cons_self p rest)
        have hfold : ∀ (l : List ℝ), (∀ x ∈ l, x = 0) →
            l.foldl jsMaxStep (some 0) = some 0 := by
          intro l
          induction l with
          | nil => intro; rfl
          | cons x xs ih =>
            intro hall
            have hx : x = 0 := hall x (List.mem_cons_self x xs)
            have : jsMaxStep (some 0) x = some 0 := by
              simp [jsMaxStep, hx]
            rw [List.foldl_cons, this]
            exact ih (fun y hy => hall y (List.mem_cons_of_mem x hy))
        have hjs : jsMax ((p :: rest).map Peak.intensity) = some 0 := by
          rw [List.map_cons, jsMax, List.foldl_cons]
          have h1 : jsMaxStep none p.intensity = some 0 := by
            simp [jsMaxStep, hp0]
          rw [h1]
          refine hfold _ (fun x hx => ?_)
          obtain ⟨q, hq, rfl⟩ := List.mem_map.mp hx
          exact hz q (List.mem_cons_of_mem p hq)
        simp only [peaksToVector, hjs]
        simp
  exact ⟨hmain, by rw [hmain]; simp⟩

/-- Witness for C7 on the empty peak list. -/
theorem peaksToVector_zero_cases_witness :
    (([] : List Peak) = [] ∨ ∀ p ∈ ([] : List Peak), p.intensity = 0)
    ∧ (peaksToVector [] = (List.range DIM).map (fun _ => (0 : ℝ))
      ∧ (peaksToVector ([] : List Peak)).length = DIM) :=
  ⟨Or.inl rfl, peaksToVector_zero_cases [] (Or.inl rfl)⟩

lemma gaussRadius_default : gaussRadius sigmaDefault = 3 := by
  unfold gaussRadius sigmaDefault
  have hfl : ⌊(3 : ℝ) * (12 / 10)⌋ = 3 := by
    rw [show (3 : ℝ) * (12 / 10) = 18 / 5 by norm_num, Int.floor_eq_iff] <;>
      norm_num
  rw [hfl]
  rfl

/-- Counterexample for C2 as stated: at the default `sigma = 1.2` the
kernel radius actually used by `gaussianSmooth` is
`max(1, floor(3·sigma)) = 3`, whereas `ceil(3·sigma) = 4`. -/
theorem gaussRadius_ceil_cex :
    gaussRadius sigmaDefault = 3 ∧ ⌈3 * sigmaDefault⌉ = 4 ∧ (3 : ℤ) ≠ 4 := by
  refine ⟨gaussRadius_default, ?_, by decide⟩
  unfold sigmaDefault
  rw [show (3 : ℝ) * (12 / 10) = 18 / 5 by norm_num, Int.ceil_eq_iff] <;>
    norm_num

lemma gaussKernelSum_pos (sigma : ℝ) (radius : ℕ) :
    0 < gaussKernelSum sigma radius := by
  unfold gaussKernelSum
  refine Finset.sum_pos (fun k _ => Real.exp_pos _) ?_
  exact ⟨0, Finset.mem_range.mpr (by omega)⟩

lemma gaussKernel_sum_one (sigma : ℝ) (radius : ℕ) :
    ∑ k in Finset.range (2 * radius + 1), gaussKernel sigma radius k = 1 := by
  unfold gaussKernel
  rw [← Finset.sum_div]
  exact div_self (ne_of_gt (gaussKernelSum_pos sigma radius))

lemma Ico_succ_top_int (a b : ℤ) (h : a ≤ b) :
    Finset.Ico a (b + 1) = insert b (Finset.Ico a b) := by
  ext x
  simp only [Finset.mem_Ico, Finset.mem_insert]
  omega

lemma sum_range_shift (F : ℤ → ℝ) (a : ℤ) :
    ∀ m : ℕ, ∑ k in Finset.range m, F (a + k)
      = ∑ j in Finset.Ico a (a + m), F j := by
  intro m
  induction m with
  | zero => simp
  | succ m ih =>
    have hcast : a + ((m + 1 : ℕ) : ℤ) = (a + m) + 1 := by push_cast; ring
    have hle : a ≤ a + (m : ℤ) := by omega
    rw [Finset.sum_range_succ, ih, hcast, Ico_succ_top_int a _ hle,
      Finset.sum_insert (by simp [Finset.mem_Ico])]
    ring

lemma gaussianSmooth_reindex (sigma : ℝ) (arr : ℤ → ℝ) (n : ℕ) (i : ℤ) :
    gaussianSmooth arr n sigma i
      = ∑ j in Finset.Ico (0 : ℤ) (n : ℤ),
          (if |j - i| ≤ ((gaussRadius sigma).toNat : ℤ) then
            arr j * gaussKernel sigma (gaussRadius sigma).toNat
              (j - i + (gaussRadius sigma).toNat).toNat
          else 0) := by
  set r : ℕ := (gaussRadius sigma).toNat with hr
  have step1 : gaussianSmooth arr n sigma i
      = ∑ k in Finset.range (2 * r + 1),
          (fun j : ℤ => if 0 ≤ j ∧ j < (n : ℤ) then
            arr j * gaussKernel sigma r (j - i + r).toNat else 0)
          ((i - r) + k) := by
    unfold gaussianSmooth
    refine Finset.sum_congr rfl (fun k hk => ?_)
    have he : i + (k : ℤ) - r = (i - r) + k := by ring
    have harg : ((i - (r : ℤ)) + k) - i + r = (k : ℤ) := by ring
    simp only [he, harg, Int.toNat_natCast]
  have hbound : (i - (r : ℤ)) + ((2 * r + 1 : ℕ) : ℤ) = i + r + 1 := by
    push_cast
    ring
  have step2 := sum_range_shift
    (fun j : ℤ => if 0 ≤ j ∧ j < (n : ℤ) then
      arr j * gaussKernel sigma r (j - i + r).toNat else 0)
    (i - r) (2 * r + 1)
  rw [step1, step2, hbound]
  show ∑ j in Finset.Ico (i - (r : ℤ)) (i + r + 1),
      (if 0 ≤ j ∧ j < (n : ℤ) then
        arr j * gaussKernel sigma r (j - i + r).toNat else 0) = _
  calc ∑ j in Finset.Ico (i - r) (i + r + 1),
        (if 0 ≤ j ∧ j < (n : ℤ) then
          arr j * gaussKernel sigma r (j - i + r).toNat else 0)
      = ∑ j in Finset.Ico (i - r) (i + r + 1),
          (if j ∈ Finset.Ico (0 : ℤ) (n : ℤ) then
            arr j * gaussKernel sigma r (j - i + r).toNat else 0) := by
        refine Finset.sum_congr rfl (fun j _ => ?_)
        refine if_congr ?_ rfl rfl
        simp [Finset.mem_Ico]
    _ = ∑ j in Finset.Ico (i - r) (i + r + 1) ∩ Finset.Ico (0 : ℤ) (n : ℤ),
          arr j * gaussKernel sigma r (j - i + r).toNat :=
        Finset.sum_ite_mem _ _ _
    _ = ∑ j in Finset.Ico (0 : ℤ) (n : ℤ) ∩ Finset.Ico (i - r) (i + r + 1),
          arr j * gaussKernel sigma r (j - i + r).toNat := by
        rw [Finset.inter_comm]
    _ = ∑ j in Finset.Ico (0 : ℤ) (n : ℤ),
          (if j ∈ Finset.Ico (i - r) (i + r + 1) then
            arr j * gaussKernel sigma r (j - i + r).toNat else 0) :=
        (Finset.sum_ite_mem _ _ _).symm
    _ = ∑ j in Finset.Ico (0 : ℤ) (n : ℤ),
          (if |j - i| ≤ (r : ℤ) then
            arr j * gaussKernel sigma r (j - i + r).toNat else 0) := by
        refine Finset.sum_congr rfl (fun j _ => ?_)
        refine if_congr ?_ rfl rfl
        rw [Finset.mem_Ico, abs_le]
        omega

/-- C2 (amended): the smoothing kernel of `gaussianSmooth` has radius
`max(1, floor(3·sigma))` — not `ceil(3·sigma)`; radius 3, not 4, at the
default `sigma = 1.2` — its normalized weights sum to 1, and each output
bin is the sum of `arr[j] · kernel[j - i + radius]` over exactly the
in-range source indices `j` within `radius` of `i`: out-of-range taps are
omitted with no wraparound and no per-bin renormalization. -/
theorem gaussianSmooth_kernel_props (sigma : ℝ) (hs : 0 < sigma)
    (arr : ℤ → ℝ) (n : ℕ) (i : ℤ) :
    gaussRadius sigma = max 1 ⌊3 * sigma⌋
    ∧ (∑ k in Finset.range (2 * (gaussRadius sigma).toNat + 1),
        gaussKernel sigma (gaussRadius sigma).toNat k) = 1
    ∧ gaussianSmooth arr n sigma i
        = ∑ j in Finset.Ico (0 : ℤ) (n : ℤ),
            (if |j - i| ≤ ((gaussRadius sigma).toNat : ℤ) then
              arr j * gaussKernel sigma (gaussRadius sigma).toNat
                (j - i + (gaussRadius sigma).toNat).toNat
            else 0)
    ∧ gaussRadius sigmaDefault = 3 :=
  ⟨rfl, gaussKernel_sum_one sigma _, gaussianSmooth_reindex sigma arr n i,
    gaussRadius_default⟩

/-- Witness for C2 (amended) at the default `sigma = 1.2`, on the array
`arr j = j` of length 300, at output bin 5. -/
theorem gaussianSmooth_kernel_props_witness :
    (0 : ℝ) < 12 / 10
    ∧ (gaussRadius (12 / 10) = max 1 ⌊3 * (12 / 10 : ℝ)⌋
      ∧ (∑ k in Finset.range (2 * (gaussRadius (12 / 10 : ℝ)).toNat + 1),
          gaussKernel (12 / 10) (gaussRadius (12 / 10 : ℝ)).toNat k) = 1
      ∧ gaussianSmooth (fun j => (j : ℝ)) 300 (12 / 10) 5
          = ∑ j in Finset.Ico (0 : ℤ) (300 : ℤ),
              (if |j - 5| ≤ ((gaussRadius (12 / 10 : ℝ)).toNat : ℤ) then
                (j : ℝ) * gaussKernel (12 / 10)
                  (gaussRadius (12 / 10 : ℝ)).toNat
                  (j - 5 + (gaussRadius (12 / 10 : ℝ)).toNat).toNat
              else 0)
      ∧ gaussRadius sigmaDefault = 3) :=
  ⟨by norm_num,
    gaussianSmooth_kernel_props (12 / 10) (by norm_num) (fun j => (j : ℝ))
      300 5⟩

lemma jsMax_append (l : List ℝ) (x : ℝ) :
    jsMax (l ++ [x]) = jsMaxStep (jsMax l) x := by
  unfold jsMax
  rw [List.foldl_append]
  rfl

lemma foldl_jsMaxStep_isSome (a : ℝ) :
    ∀ (l : List ℝ), (l.foldl jsMaxStep (some a)).isSome = true := by
  intro l
  induction l generalizing a with
  | nil => rfl
  | cons x xs ih => exact ih (max a x)

lemma jsMax_eq_none {l : List ℝ} (h : jsMax l = none) : l = [] := by
  cases l with
  | nil => rfl
  | cons x xs =>
    exfalso
    have := foldl_jsMaxStep_isSome x xs
    rw [show xs.foldl jsMaxStep (some x) = jsMax (x :: xs) from rfl, h] at this
    cases this

lemma foldl_jsMaxStep_le :
    ∀ (l : List ℝ) (acc : Option ℝ) (M : ℝ),
      l.foldl jsMaxStep acc = some M →
      (∀ x ∈ l, x ≤ M) ∧ (∀ m, acc = some m → m ≤ M) := by
  intro l
  induction l with
  | nil =>
    intro acc M h
    refine ⟨fun x hx => absurd hx (List.not_mem_nil x), fun m hm => ?_⟩
    rw [hm] at h
    exact le_of_eq (Option.some_injective _ h)
  | cons x xs ih =>
    intro acc M h
    rw [List.foldl_cons] at h
    obtain ⟨hxs, hacc⟩ := ih (jsMaxStep acc x) M h
    have hx : x ≤ M := by
      cases acc with
      | none => exact hacc x rfl
      | some a =>
        have := hacc (max a x) rfl
        exact le_trans (le_max_right a x) this
    refine ⟨fun y hy => ?_, fun m hm => ?_⟩
    · rcases List.mem_cons.mp hy with rfl | hy2
      · exact hx
      · exact hxs y hy2
    · cases acc with
      | none => cases hm
      | some a =>
        have := hacc (max a x) rfl
        injection hm with hm2
        exact le_trans (hm2 ▸ le_max_left a x) this

lemma foldl_jsMaxStep_mem :
    ∀ (l : List ℝ) (acc : Option ℝ) (M : ℝ),
      l.foldl jsMaxStep acc = some M → M ∈ l ∨ acc = some M := by
  intro l
  induction l with
  | nil => intro acc M h; exact Or.inr h
  | cons x xs ih =>
    intro acc M h
    rw [List.foldl_cons] at h
    rcases ih (jsMaxStep acc x) M h with hmem | hstep
    · exact Or.inl (List.mem_cons_of_mem x hmem)
    · cases acc with
      | none =>
        have hx : x = M := Option.some_injective _ hstep
        exact Or.inl (hx ▸ List.mem_cons_self x xs)
      | some a =>
        have hmax : max a x = M := Option.some_injective _ hstep
        rcases max_choice a x with hca | hcx
        · exact Or.inr (congrArg some (hca ▸ hmax))
        · exact Or.inl ((hcx ▸ hmax) ▸ List.mem_cons_self x xs)

lemma updateBins_skip {p : Peak} (m : ℝ) (b : ℤ → ℝ)
    (h : p.mz < MZ_LO ∨ MZ_HI < p.mz) : updateBins m b p = b := by
  unfold updateBins
  rw [if_pos h]

lemma binsOf_append_single (P : List Peak) (p : Peak) (m : ℝ) :
    binsOf (P ++ [p]) m = updateBins m (binsOf P m) p := by
  unfold binsOf
  rw [List.foldl_append]
  rfl

lemma updateBins_zero_intensity (m : ℝ) (q : Peak) (hq : q.intensity = 0) :
    updateBins m (fun _ => 0) q = fun _ => 0 := by
  unfold updateBins
  split_ifs with hw
  · rfl
  · funext i
    rw [hq, zero_div]
    rw [if_neg (fun hc => lt_irrefl 0 hc.2)]

lemma binsOf_all_zero :
    ∀ (P : List Peak) (m : ℝ), (∀ q ∈ P, q.intensity = 0) →
      binsOf P m = fun _ => 0 := by
  intro P
  induction P with
  | nil => intro m _; rfl
  | cons q rest ih =>
    intro m h
    show List.foldl (updateBins m) (updateBins m (fun _ => 0) q) rest = _
    rw [updateBins_zero_intensity m q (h q (List.mem_cons_self q rest))]
    exact ih m (fun x hx => h x (List.mem_cons_of_mem q hx))

lemma updateBins_smul (c M1 M2 : ℝ) (hc : 0 < c)
    (hdiv : ∀ v : ℝ, v / M2 = c * (v / M1)) (b : ℤ → ℝ) (p : Peak) :
    updateBins M2 (fun i => c * b i) p = fun i => c * updateBins M1 b p i := by
  unfold updateBins
  split_ifs with hw
  · rfl
  · funext i
    dsimp only
    rw [hdiv p.intensity]
    by_cases hcond : i = binIndexZ p.mz ∧ b i < p.intensity / M1
    · rw [if_pos ⟨hcond.1, (mul_lt_mul_left hc).mpr hcond.2⟩, if_pos hcond]
    · have hneg : ¬(i = binIndexZ p.mz ∧ c * b i < c * (p.intensity / M1)) :=
        fun hcc => hcond ⟨hcc.1, (mul_lt_mul_left hc).mp hcc.2⟩
      rw [if_neg hneg, if_neg hcond]

lemma foldl_updateBins_smul (c M1 M2 : ℝ) (hc : 0 < c)
    (hdiv : ∀ v : ℝ, v / M2 = c * (v / M1)) :
    ∀ (P : List Peak) (b : ℤ → ℝ),
      P.foldl (updateBins M2) (fun i => c * b i)
        = fun i => c * P.foldl (updateBins M1) b i := by
  intro P
  induction P with
  | nil => intro b; rfl
  | cons p rest ih =>
    intro b
    rw [List.foldl_cons, List.foldl_cons,
      updateBins_smul c M1 M2 hc hdiv b p, ih (updateBins M1 b p)]

lemma binsOf_smul (c M1 M2 : ℝ) (hc : 0 < c)
    (hdiv : ∀ v : ℝ, v / M2 = c * (v / M1)) (P : List Peak) :
    binsOf P M2 = fun i => c * binsOf P M1 i := by
  unfold binsOf
  have h0 : (fun _ : ℤ => (0 : ℝ)) = fun i : ℤ => c * (fun _ : ℤ => (0 : ℝ)) i := by
    funext i
    simp
  calc P.foldl (updateBins M2) (fun _ => 0)
      = P.foldl (updateBins M2) (fun i : ℤ => c * (fun _ : ℤ => (0 : ℝ)) i) := by
        rw [← h0]
    _ = fun i => c * P.foldl (updateBins M1) (fun _ => 0) i :=
        foldl_updateBins_smul c M1 M2 hc hdiv P (fun _ => 0)

lemma gaussianSmooth_smul (c : ℝ) (arr : ℤ → ℝ) (n : ℕ) (sigma : ℝ) :
    gaussianSmooth (fun j => c * arr j) n sigma
      = fun i => c * gaussianSmooth arr n sigma i := by
  funext i
  unfold gaussianSmooth
  rw [Finset.mul_sum]
  refine Finset.sum_congr rfl (fun k _ => ?_)
  split_ifs
  · ring
  · ring

lemma l2NormOf_smul (c : ℝ) (hc : 0 ≤ c) (s : ℤ → ℝ) :
    l2NormOf (fun i => c * s i) = c * l2NormOf s := by
  unfold l2NormOf
  have hsum : ∑ i in Finset.range DIM, (c * s (i : ℤ)) ^ 2
      = c ^ 2 * ∑ i in Finset.range DIM, s (i : ℤ) ^ 2 := by
    rw [Finset.mul_sum]
    refine Finset.sum_congr rfl (fun i _ => ?_)
    ring
  rw [hsum, Real.sqrt_mul (sq_nonneg c), Real.sqrt_sq hc]

lemma smoothed_zero_of_norm_not_pos (bins : ℤ → ℝ)
    (h : ¬0 < l2NormOf (gaussianSmooth bins DIM sigmaDefault)) :
    ∀ i ∈ Finset.range DIM,
      gaussianSmooth bins DIM sigmaDefault (i : ℤ) = 0 := by
  have hnrm : l2NormOf (gaussianSmooth bins DIM sigmaDefault) = 0 :=
    le_antisymm (not_lt.mp h) (Real.sqrt_nonneg _)
  have hS : ∑ i in Finset.range DIM,
      gaussianSmooth bins DIM sigmaDefault (i : ℤ) ^ 2 = 0 :=
    (Real.sqrt_eq_zero (Finset.sum_nonneg (fun i _ => sq_nonneg _))).mp hnrm
  intro i hi
  have := (Finset.sum_eq_zero_iff_of_nonneg (fun j _ => sq_nonneg _)).mp hS i hi
  exact pow_eq_zero_iff (n := 2) (by norm_num) |>.mp this

lemma finishVec_smul (c : ℝ) (hc : 0 < c) (bins : ℤ → ℝ) :
    finishVec (fun i => c * bins i) = finishVec bins := by
  unfold finishVec
  rw [gaussianSmooth_smul, l2NormOf_smul c hc.le]
  by_cases hn : 0 < l2NormOf (gaussianSmooth bins DIM sigmaDefault)
  · have hcn : 0 < c * l2NormOf (gaussianSmooth bins DIM sigmaDefault) :=
      mul_pos hc hn
    rw [if_pos hcn, if_pos hn]
    refine List.map_congr_left (fun i _ => ?_)
    exact mul_div_mul_left _ _ (ne_of_gt hc)
  · have hN0 : l2NormOf (gaussianSmooth bins DIM sigmaDefault) = 0 :=
      le_antisymm (not_lt.mp hn) (Real.sqrt_nonneg _)
    have hcn : ¬0 < c * l2NormOf (gaussianSmooth bins DIM sigmaDefault) := by
      rw [hN0, mul_zero]
      exact lt_irrefl 0
    rw [if_neg hcn, if_neg hn]
    refine List.map_congr_left (fun i hi => ?_)
    have hz := smoothed_zero_of_norm_not_pos bins hn i
      (Finset.mem_range.mpr (List.mem_range.mp hi))
    dsimp only
    rw [hz, mul_zero]

/-- C3: appending a peak whose m/z lies outside the `[30, 1100]` window
never changes the embedding vector (intensities are nonnegative per the
data model): the appended peak's intensity does enter the maximum-intensity
computation, but the resulting uniform rescaling of the bins is cancelled
by the final L2 normalization. -/
theorem vectorize_outOfWindow (P : List Peak) (p : Peak)
    (hwin : p.mz < MZ_LO ∨ MZ_HI < p.mz)
    (hnn : ∀ q ∈ P, 0 ≤ q.intensity) :
    peaksToVector (P ++ [p]) = peaksToVector P := by
  have hmap : (P ++ [p]).map Peak.intensity
      = P.map Peak.intensity ++ [p.intensity] := by simp
  cases hP : jsMax (P.map Peak.intensity) with
  | none =>
    have hPnil : P = [] := List.map_eq_nil.mp (jsMax_eq_none hP)
    subst hPnil
    simp only [List.nil_append]
    have hjs1 : jsMax ([p].map Peak.intensity) = some p.intensity := rfl
    by_cases hpz : p.intensity = 0
    · simp only [peaksToVector, hjs1, hP]
      rw [if_pos hpz, show binsOf [] (0 : ℝ) = fun _ => 0 from rfl,
        finishVec_zeroBins]
    · simp only [peaksToVector, hjs1, hP]
      have hbp : binsOf [p] p.intensity = fun _ => 0 := by
        show updateBins p.intensity (fun _ => 0) p = _
        rw [updateBins_skip _ _ hwin]
      rw [if_neg hpz, hbp, finishVec_zeroBins,
        show binsOf [] (0 : ℝ) = fun _ => 0 from rfl, finishVec_zeroBins]
  | some M =>
    have hjs2 : jsMax ((P ++ [p]).map Peak.intensity)
        = some (max M p.intensity) := by
      rw [hmap, jsMax_append, hP]
      rfl
    have hMmem : M ∈ P.map Peak.intensity := by
      rcases foldl_jsMaxStep_mem _ none M hP with h | h
      · exact h
      · cases h
    have hM0 : 0 ≤ M := by
      obtain ⟨q, hq, hqM⟩ := List.mem_map.mp hMmem
      exact hqM ▸ hnn q hq
    by_cases hMz : M = 0
    · subst hMz
      by_cases hple : p.intensity ≤ 0
      · have hmax : max (0 : ℝ) p.intensity = 0 := max_eq_left hple
        simp only [peaksToVector, hjs2, hP, hmax]
        simp
      · push_neg at hple
        have hmax : max (0 : ℝ) p.intensity = p.intensity :=
          max_eq_right hple.le
        have hpz : p.intensity ≠ 0 := ne_of_gt hple
        have hallz : ∀ q ∈ P, q.intensity = 0 := by
          intro q hq
          have hle : q.intensity ≤ 0 :=
            (foldl_jsMaxStep_le _ none 0 hP).1 q.intensity
              (List.mem_map_of_mem _ hq)
          exact le_antisymm hle (hnn q hq)
        simp only [peaksToVector, hjs2, hP, hmax]
        rw [if_neg hpz, binsOf_append_single, updateBins_skip _ _ hwin,
          binsOf_all_zero P _ hallz, finishVec_zeroBins]
        simp
    · have hMpos : 0 < M := lt_of_le_of_ne hM0 (Ne.symm hMz)
      have hM2pos : 0 < max M p.intensity :=
        lt_of_lt_of_le hMpos (le_max_left _ _)
      have hM2z : max M p.intensity ≠ 0 := ne_of_gt hM2pos
      have hcpos : 0 < M / max M p.intensity := div_pos hMpos hM2pos
      have hdiv : ∀ v : ℝ,
          v / max M p.intensity = (M / max M p.intensity) * (v / M) := by
        intro v
        field_simp
        ring
      simp only [peaksToVector, hjs2, hP]
      rw [if_neg hM2z, if_neg hMz, binsOf_append_single,
        updateBins_skip _ _ hwin,
        binsOf_smul (M / max M p.intensity) M (max M p.intensity) hcpos
          hdiv P,
        finishVec_smul _ hcpos]

/-- Witness for C3: a one-peak list with an out-of-window peak (m/z 20,
intensity 5, larger than the in-window peak's intensity 1) appended. -/
theorem vectorize_outOfWindow_witness :
    ((⟨20, 5⟩ : Peak).mz < MZ_LO ∨ MZ_HI < (⟨20, 5⟩ : Peak).mz)
    ∧ (∀ q ∈ [(⟨50, 1⟩ : Peak)], 0 ≤ q.intensity)
    ∧ peaksToVector ([(⟨50, 1⟩ : Peak)] ++ [(⟨20, 5⟩ : Peak)])
        = peaksToVector [(⟨50, 1⟩ : Peak)] :=
  ⟨Or.inl (by norm_num [MZ_LO]),
    fun q hq => by rw [List.mem_singleton.mp hq]; norm_num,
    vectorize_outOfWindow [(⟨50, 1⟩ : Peak)] (⟨20, 5⟩ : Peak)
      (Or.inl (by norm_num [MZ_LO]))
      (fun q hq => by rw [List.mem_singleton.mp hq]; norm_num)⟩

end Spec2Proof
